import Mathlib

/-!
Shallow embedding of the chaindexing coordination/ingestion core, translated from the
repository sources (src/chaindexing/src/*). Machine integers are modelled as `Int`
(for Rust `i64`/`i32` columns) and `Nat` (for Rust `u64` quantities), with explicit
wrapping where the source casts between them. Database tables are modelled as Lean
lists of row structures; each repository operation becomes a pure function on those
lists. Definitions whose Rust source file is not part of src/ are modelled from the
specification and marked `Modelled from the spec:` in their doc comment.
-/

namespace Chaindexing

/-! ## Contract address registry (src/chaindexing/src/repos/postgres_repo.rs) -/

/-- A row of `chaindexing_contract_addresses` (spec §3 ContractAddress). `i64`/`i32`
columns are modelled as `Int`. -/
structure ContractAddress where
  id : Int
  chain_id : Int
  address : String
  contract_name : String
  start_block_number : Int
  next_block_number_to_ingest_from : Int
  next_block_number_to_handle_from : Int
  next_block_number_for_side_effects : Int
  deriving DecidableEq

/-- An `UnsavedContractAddress` value as inserted by the repo. -/
structure UnsavedContractAddress where
  contract_name : String
  address : String
  chain_id : Int
  start_block_number : Int
  deriving DecidableEq

/-- Rust's `str::to_lowercase`, modelled as per-character case folding (contract
addresses are ASCII hex strings, for which the two coincide). -/
def toLowercase (s : String) : String :=
  ⟨s.data.map Char.toLower⟩

/-- Modelled from the spec: `UnsavedContractAddress::new` lives in contracts.rs, which is
not under src/; per spec §3 the address is stored case-folded, so `new` lowercases it. -/
def UnsavedContractAddress.new (contract_name address : String) (chain_id : Int)
    (start_block_number : Int) : UnsavedContractAddress :=
  ⟨contract_name, toLowercase address, chain_id, start_block_number⟩

/-- The conflict target of the upsert: `(chain_id, address)`. -/
def ContractAddress.key (r : ContractAddress) : Int × String :=
  (r.chain_id, r.address)

def UnsavedContractAddress.key (v : UnsavedContractAddress) : Int × String :=
  (v.chain_id, v.address)

/-- The `DO UPDATE SET` clause of `upsert_contract_addresses`: overwrite `contract_name`
and `start_block_number` with the excluded values; no other column is in the update set. -/
def conflictUpdate (v : UnsavedContractAddress) (r : ContractAddress) : ContractAddress :=
  { r with contract_name := v.contract_name, start_block_number := v.start_block_number }

/-- Modelled from the spec: the freshly inserted row for an `UnsavedContractAddress`.
The schema defaults are outside src/; spec §8 scenario 1 (and the repo test
sets_next_block_number_to_ingest_from_with_provided_start_block_number) fix all three
cursors to `start_block_number`. Row ids are database-assigned serials that no claim
observes; they are modelled as 0. -/
def freshRow (v : UnsavedContractAddress) : ContractAddress :=
  { id := 0
    chain_id := v.chain_id
    address := v.address
    contract_name := v.contract_name
    start_block_number := v.start_block_number
    next_block_number_to_ingest_from := v.start_block_number
    next_block_number_to_handle_from := v.start_block_number
    next_block_number_for_side_effects := v.start_block_number }

/-- Insertion of a single value with `ON CONFLICT (chain_id, address) DO UPDATE`:
if a row with the same key exists it is updated in place via `conflictUpdate`,
otherwise the fresh row is appended. -/
def upsertRow (t : List ContractAddress) (v : UnsavedContractAddress) :
    List ContractAddress :=
  if ∃ r ∈ t, r.key = v.key then
    t.map fun r => if r.key = v.key then conflictUpdate v r else r
  else
    t ++ [freshRow v]

/-- `upsert_contract_addresses` (postgres_repo.rs lines 95-112): insert the batch with
`ON CONFLICT (chain_id, address) DO UPDATE SET contract_name = excluded.contract_name,
start_block_number = excluded.start_block_number`. A batch containing two values with
the same conflict key makes Postgres raise a cardinality violation ("cannot affect row
a second time"), which the source `unwrap`s into a panic; this is modelled as `none`. -/
def upsert_contract_addresses (values : List UnsavedContractAddress)
    (t : List ContractAddress) : Option (List ContractAddress) :=
  if (values.map UnsavedContractAddress.key).Nodup then
    some (values.foldl upsertRow t)
  else
    none

/-- The effect of the batch's conflict updates on one pre-existing row. -/
def conflictStep (r : ContractAddress) (v : UnsavedContractAddress) : ContractAddress :=
  if r.key = v.key then conflictUpdate v r else r

def applyConflicts (values : List UnsavedContractAddress) (r : ContractAddress) :
    ContractAddress :=
  values.foldl conflictStep r

/-- `update_next_block_number_to_ingest_from` (postgres_repo.rs lines 155-168):
set the ingestion cursor of every row whose `id` matches. -/
def update_next_block_number_to_ingest_from (t : List ContractAddress)
    (contract_address : ContractAddress) (block_number : Int) : List ContractAddress :=
  t.map fun r =>
    if r.id = contract_address.id then
      { r with next_block_number_to_ingest_from := block_number }
    else r

/-- Spec §8 P1: every row's ingestion cursor is at least its start block. -/
def cursorInvariant (t : List ContractAddress) : Prop :=
  ∀ r ∈ t, r.start_block_number ≤ r.next_block_number_to_ingest_from

instance (t : List ContractAddress) : Decidable (cursorInvariant t) :=
  List.decidableBAll _ t

/-! ### Helper lemmas about the upsert fold -/

theorem key_conflictUpdate (v : UnsavedContractAddress) (r : ContractAddress) :
    (conflictUpdate v r).key = r.key := rfl

theorem key_freshRow (v : UnsavedContractAddress) : (freshRow v).key = v.key := rfl

theorem length_le_upsertRow (t : List ContractAddress) (v : UnsavedContractAddress) :
    t.length ≤ (upsertRow t v).length := by
  unfold upsertRow
  split
  · simp
  · simp

theorem getElem_upsertRow (t : List ContractAddress) (v : UnsavedContractAddress)
    (i : Nat) (hi : i < t.length) :
    ∃ h2 : i < (upsertRow t v).length, (upsertRow t v)[i] = conflictStep t[i] v := by
  unfold upsertRow
  split
  · refine ⟨by simpa using hi, ?_⟩
    simp [conflictStep]
  · rename_i hnone
    refine ⟨lt_of_lt_of_le hi (by simp), ?_⟩
    rw [List.getElem_append_left hi]
    have hne : t[i].key ≠ v.key := fun hk => hnone ⟨t[i], List.getElem_mem hi, hk⟩
    simp [conflictStep, hne]

/-- Positional characterization of the batch upsert: every pre-existing row keeps its
position and is transformed exactly by the batch's conflict updates. -/
theorem getElem_foldl_upsertRow (values : List UnsavedContractAddress)
    (t : List ContractAddress) (i : Nat) (hi : i < t.length) :
    ∃ hlen : i < (values.foldl upsertRow t).length,
      (values.foldl upsertRow t)[i] = applyConflicts values t[i] := by
  induction values generalizing t with
  | nil => exact ⟨hi, rfl⟩
  | cons v vs ih =>
    obtain ⟨h2, hstep⟩ := getElem_upsertRow t v i hi
    obtain ⟨hlen, heq⟩ := ih (upsertRow t v) h2
    refine ⟨hlen, ?_⟩
    simp only [List.foldl_cons] at *
    rw [heq, hstep]
    rfl

theorem key_conflictStep (r : ContractAddress) (v : UnsavedContractAddress) :
    (conflictStep r v).key = r.key := by
  unfold conflictStep
  split <;> rfl

theorem applyConflicts_of_no_match (values : List UnsavedContractAddress)
    (r : ContractAddress) (h : ∀ v ∈ values, r.key ≠ v.key) :
    applyConflicts values r = r := by
  induction values with
  | nil => rfl
  | cons v vs ih =>
    have hv : r.key ≠ v.key := h v (List.mem_cons_self v vs)
    simp only [applyConflicts, List.foldl_cons, conflictStep, hv, if_false]
    exact ih fun w hw => h w (List.mem_cons_of_mem v hw)

/-- When the batch keys are distinct, the conflict updates seen by a row whose key is hit
by the batch member `v` amount to exactly `conflictUpdate v`. -/
theorem applyConflicts_of_match (values : List UnsavedContractAddress)
    (v : UnsavedContractAddress) (r : ContractAddress)
    (hnd : (values.map UnsavedContractAddress.key).Nodup)
    (hv : v ∈ values) (hk : r.key = v.key) :
    applyConflicts values r = conflictUpdate v r := by
  induction values with
  | nil => cases hv
  | cons w ws ih =>
    simp only [List.map_cons, List.nodup_cons] at hnd
    rcases List.mem_cons.mp hv with hvw | hvs
    · subst hvw
      simp only [applyConflicts, List.foldl_cons, conflictStep, hk, if_true]
      have hnomatch : ∀ u ∈ ws, (conflictUpdate v r).key ≠ u.key := by
        intro u hu hku
        exact hnd.1 (by
          rw [key_conflictUpdate, hk] at hku
          exact hku ▸ List.mem_map_of_mem UnsavedContractAddress.key hu)
      exact applyConflicts_of_no_match ws (conflictUpdate v r) hnomatch
    · have hwk : r.key ≠ w.key := by
        rw [hk]
        intro hvw
        exact hnd.1 (hvw ▸ List.mem_map_of_mem UnsavedContractAddress.key hvs)
      simp only [applyConflicts, List.foldl_cons, conflictStep, hwk, if_false]
      exact ih hnd.2 hvs

/-- C1: for every prior row state and every batch, a `(chain_id, address)` conflict
overwrites only `contract_name` and `start_block_number`; every other column of the row
— in particular `next_block_number_to_ingest_from`, `next_block_number_to_handle_from`
and `next_block_number_for_side_effects` — is exactly unchanged, the cursors being
absent from the conflict update set. -/
theorem upsert_overwrites_name_start_preserves_cursors
    (values : List UnsavedContractAddress) (t t' : List ContractAddress)
    (v : UnsavedContractAddress) (i : Nat)
    (hup : upsert_contract_addresses values t = some t')
    (hi : i < t.length) (hv : v ∈ values) (hk : t[i].key = v.key) :
    t'[i]? = some { t[i] with contract_name := v.contract_name,
                              start_block_number := v.start_block_number } := by
  unfold upsert_contract_addresses at hup
  split at hup
  · rename_i hnd
    obtain ⟨hlen, heq⟩ := getElem_foldl_upsertRow values t i hi
    obtain rfl : values.foldl upsertRow t = t' := Option.some.inj hup
    rw [List.getElem?_eq_getElem hlen, heq,
      applyConflicts_of_match values v t[i] hnd hv hk]
    rfl
  · cases hup

theorem upsert_overwrites_name_start_preserves_cursors_witness :
    upsert_contract_addresses [UnsavedContractAddress.new "updated" "0xAB" 42 2000]
        [freshRow (UnsavedContractAddress.new "initial" "0xAB" 42 400)] =
      some [{ id := 0, chain_id := 42, address := "0xab", contract_name := "updated",
              start_block_number := 2000, next_block_number_to_ingest_from := 400,
              next_block_number_to_handle_from := 400,
              next_block_number_for_side_effects := 400 }] ∧
    ([{ id := 0, chain_id := 42, address := "0xab", contract_name := "updated",
        start_block_number := 2000, next_block_number_to_ingest_from := 400,
        next_block_number_to_handle_from := 400,
        next_block_number_for_side_effects := 400 }] : List ContractAddress)[0]? =
      some { freshRow (UnsavedContractAddress.new "initial" "0xAB" 42 400) with
             contract_name := "updated", start_block_number := 2000 } := by
  constructor
  · decide
  · exact upsert_overwrites_name_start_preserves_cursors
      [UnsavedContractAddress.new "updated" "0xAB" 42 2000]
      [freshRow (UnsavedContractAddress.new "initial" "0xAB" 42 400)] _
      (UnsavedContractAddress.new "updated" "0xAB" 42 2000) 0
      (by decide) (by decide) (by decide) (by decide)

/-! ### Idempotence machinery -/

theorem mem_upsertRow_of_key_ne (t : List ContractAddress) (v : UnsavedContractAddress)
    (r : ContractAddress) (hr : r ∈ upsertRow t v) (hne : r.key ≠ v.key) : r ∈ t := by
  unfold upsertRow at hr
  split at hr
  · obtain ⟨r0, hr0, heq⟩ := List.mem_map.mp hr
    by_cases h0 : r0.key = v.key
    · rw [if_pos h0] at heq
      exact absurd (heq ▸ key_conflictUpdate v r0 ▸ h0) hne
    · rw [if_neg h0] at heq
      exact heq ▸ hr0
  · rcases List.mem_append.mp hr with h | h
    · exact h
    · exact absurd (List.mem_singleton.mp h ▸ key_freshRow v) hne

theorem exists_key_upsertRow_mono (t : List ContractAddress)
    (v : UnsavedContractAddress) (k : Int × String)
    (h : ∃ r ∈ t, r.key = k) : ∃ r ∈ upsertRow t v, r.key = k := by
  obtain ⟨r, hr, hk⟩ := h
  unfold upsertRow
  split
  · by_cases h0 : r.key = v.key
    · refine ⟨conflictUpdate v r, ?_, (key_conflictUpdate v r).trans hk⟩
      exact List.mem_map.mpr ⟨r, hr, by rw [if_pos h0]⟩
    · refine ⟨r, ?_, hk⟩
      exact List.mem_map.mpr ⟨r, hr, by rw [if_neg h0]⟩
  · exact ⟨r, List.mem_append_left _ hr, hk⟩

theorem exists_key_upsertRow_self (t : List ContractAddress)
    (v : UnsavedContractAddress) : ∃ r ∈ upsertRow t v, r.key = v.key := by
  unfold upsertRow
  split
  · rename_i hsome
    obtain ⟨r, hr, hk⟩ := hsome
    refine ⟨conflictUpdate v r, ?_, (key_conflictUpdate v r).trans hk⟩
    exact List.mem_map.mpr ⟨r, hr, by rw [if_pos hk]⟩
  · exact ⟨freshRow v, List.mem_append_right _ (List.mem_singleton_self _),
      key_freshRow v⟩

theorem exists_key_foldl_mono (values : List UnsavedContractAddress) :
    ∀ (t : List ContractAddress) (k : Int × String),
      (∃ r ∈ t, r.key = k) → ∃ r ∈ values.foldl upsertRow t, r.key = k := by
  induction values with
  | nil =>
    intro t k h
    exact h
  | cons v vs ih =>
    intro t k h
    simp only [List.foldl_cons]
    exact ih (upsertRow t v) k (exists_key_upsertRow_mono t v k h)

theorem exists_key_foldl (values : List UnsavedContractAddress)
    (t : List ContractAddress) (v : UnsavedContractAddress) (hv : v ∈ values) :
    ∃ r ∈ values.foldl upsertRow t, r.key = v.key := by
  induction values generalizing t with
  | nil => cases hv
  | cons w ws ih =>
    simp only [List.foldl_cons]
    rcases List.mem_cons.mp hv with hvw | hvs
    · subst hvw
      exact exists_key_foldl_mono ws (upsertRow t v) v.key
        (exists_key_upsertRow_self t v)
    · exact ih (upsertRow t w) hvs

theorem mem_foldl_key_notin (values : List UnsavedContractAddress)
    (t : List ContractAddress) (r : ContractAddress) (k : Int × String)
    (hnotin : ∀ u ∈ values, u.key ≠ k)
    (hr : r ∈ values.foldl upsertRow t) (hk : r.key = k) : r ∈ t := by
  induction values generalizing t with
  | nil => exact hr
  | cons w ws ih =>
    simp only [List.foldl_cons] at hr
    have hmem : r ∈ upsertRow t w :=
      ih (upsertRow t w) (fun u hu => hnotin u (List.mem_cons_of_mem w hu)) hr
    have hw : r.key ≠ w.key := by
      rw [hk]
      exact fun h => hnotin w (List.mem_cons_self w ws) h.symm
    exact mem_upsertRow_of_key_ne t w r hmem hw

theorem mem_upsertRow_key_self (t : List ContractAddress)
    (v : UnsavedContractAddress) (r : ContractAddress)
    (hr : r ∈ upsertRow t v) (hk : r.key = v.key) : conflictUpdate v r = r := by
  unfold upsertRow at hr
  split at hr
  · obtain ⟨r0, hr0, heq⟩ := List.mem_map.mp hr
    by_cases h0 : r0.key = v.key
    · rw [if_pos h0] at heq
      subst heq
      rfl
    · rw [if_neg h0] at heq
      exact absurd (heq ▸ hk) h0
  · rename_i hnone
    rcases List.mem_append.mp hr with h | h
    · exact absurd ⟨r, h, hk⟩ hnone
    · rw [List.mem_singleton.mp h]
      rfl

theorem conflictUpdate_fixed_foldl (values : List UnsavedContractAddress)
    (t : List ContractAddress) (v : UnsavedContractAddress) (r : ContractAddress)
    (hnd : (values.map UnsavedContractAddress.key).Nodup)
    (hv : v ∈ values) (hr : r ∈ values.foldl upsertRow t) (hk : r.key = v.key) :
    conflictUpdate v r = r := by
  induction values generalizing t with
  | nil => cases hv
  | cons w ws ih =>
    simp only [List.map_cons, List.nodup_cons] at hnd
    simp only [List.foldl_cons] at hr
    rcases List.mem_cons.mp hv with hvw | hvs
    · subst hvw
      have hnotin : ∀ u ∈ ws, u.key ≠ v.key := by
        intro u hu hequ
        exact hnd.1 (hequ ▸ List.mem_map_of_mem UnsavedContractAddress.key hu)
      have hmem : r ∈ upsertRow t v :=
        mem_foldl_key_notin ws (upsertRow t v) r v.key
          (fun u hu => hnotin u hu) hr hk
      exact mem_upsertRow_key_self t v r hmem hk
    · exact ih (upsertRow t w) hnd.2 hvs hr

theorem foldl_upsertRow_fixed (values : List UnsavedContractAddress) :
    ∀ t : List ContractAddress,
      (∀ v ∈ values, ∃ r ∈ t, r.key = v.key) →
      (∀ v ∈ values, ∀ r ∈ t, r.key = v.key → conflictUpdate v r = r) →
      values.foldl upsertRow t = t := by
  induction values with
  | nil =>
    intro t _ _
    rfl
  | cons v vs ih =>
    intro t hkeys hfix
    have hstep : upsertRow t v = t := by
      unfold upsertRow
      rw [if_pos (hkeys v (List.mem_cons_self v vs))]
      have hid : ∀ r ∈ t, (if r.key = v.key then conflictUpdate v r else r) = id r := by
        intro r hr
        by_cases h0 : r.key = v.key
        · simpa [h0] using hfix v (List.mem_cons_self v vs) r hr h0
        · simp [h0]
      rw [List.map_congr_left hid, List.map_id]
    simp only [List.foldl_cons, hstep]
    exact ih t (fun w hw => hkeys w (List.mem_cons_of_mem v hw))
      (fun w hw => hfix w (List.mem_cons_of_mem v hw))

/-- C7: running `upsert_contract_addresses` twice with the same batch leaves the
contract-address table exactly as running it once; the second upsert changes no row. -/
theorem upsert_idempotent (values : List UnsavedContractAddress)
    (t t' : List ContractAddress)
    (hup : upsert_contract_addresses values t = some t') :
    upsert_contract_addresses values t' = some t' := by
  unfold upsert_contract_addresses at *
  split at hup
  · rename_i hnd
    obtain rfl : values.foldl upsertRow t = t' := Option.some.inj hup
    rw [if_pos hnd]
    congr 1
    exact foldl_upsertRow_fixed values _
      (fun v hv => exists_key_foldl values t v hv)
      (fun v hv r hr hk => conflictUpdate_fixed_foldl values t v r hnd hv hr hk)
  · cases hup

theorem upsert_idempotent_witness :
    upsert_contract_addresses [UnsavedContractAddress.new "a" "0xAB" 1 5] [] =
      some [freshRow (UnsavedContractAddress.new "a" "0xAB" 1 5)] ∧
    upsert_contract_addresses [UnsavedContractAddress.new "a" "0xAB" 1 5]
        [freshRow (UnsavedContractAddress.new "a" "0xAB" 1 5)] =
      some [freshRow (UnsavedContractAddress.new "a" "0xAB" 1 5)] :=
  ⟨by decide, upsert_idempotent [UnsavedContractAddress.new "a" "0xAB" 1 5] [] _ (by decide)⟩

/-! ### The cursor invariant (spec P1) against the write paths -/

theorem mem_upsertRow_cases (t : List ContractAddress) (v : UnsavedContractAddress)
    (r' : ContractAddress) (hr' : r' ∈ upsertRow t v) :
    (∃ r ∈ t, r.key = v.key ∧ r' = conflictUpdate v r) ∨ r' ∈ t ∨ r' = freshRow v := by
  unfold upsertRow at hr'
  split at hr'
  · obtain ⟨r, hr, heq⟩ := List.mem_map.mp hr'
    by_cases h0 : r.key = v.key
    · rw [if_pos h0] at heq
      exact Or.inl ⟨r, hr, h0, heq.symm⟩
    · rw [if_neg h0] at heq
      exact Or.inr (Or.inl (heq ▸ hr))
  · rcases List.mem_append.mp hr' with h | h
    · exact Or.inr (Or.inl h)
    · exact Or.inr (Or.inr (List.mem_singleton.mp h))

theorem cursorInvariant_foldl (values : List UnsavedContractAddress) :
    ∀ t : List ContractAddress,
      (values.map UnsavedContractAddress.key).Nodup →
      cursorInvariant t →
      (∀ v ∈ values, ∀ r ∈ t, r.key = v.key →
        v.start_block_number ≤ r.next_block_number_to_ingest_from) →
      cursorInvariant (values.foldl upsertRow t) := by
  induction values with
  | nil =>
    intro t _ hinv _
    exact hinv
  | cons v vs ih =>
    intro t hnd hinv hcompat
    simp only [List.map_cons, List.nodup_cons] at hnd
    simp only [List.foldl_cons]
    have hkeyne : ∀ w ∈ vs, w.key ≠ v.key := by
      intro w hw hequ
      exact hnd.1 (hequ ▸ List.mem_map_of_mem UnsavedContractAddress.key hw)
    apply ih (upsertRow t v) hnd.2
    · intro r' hr'
      rcases mem_upsertRow_cases t v r' hr' with ⟨r, hr, hk, rfl⟩ | hmem | rfl
      · exact hcompat v (List.mem_cons_self v vs) r hr hk
      · exact hinv r' hmem
      · exact le_refl _
    · intro w hw r' hr' hk'
      rcases mem_upsertRow_cases t v r' hr' with ⟨r, hr, hk, rfl⟩ | hmem | rfl
      · exact absurd ((key_conflictUpdate v r ▸ hk' : r.key = w.key) ▸ hk.symm).symm
          (hkeyne w hw)
      · exact hcompat w (List.mem_cons_of_mem v hw) r' hmem hk'
      · exact absurd (key_freshRow v ▸ hk' : v.key = w.key).symm (hkeyne w hw)

/-- C2 (amended): the predicate `next_block_number_to_ingest_from ≥ start_block_number`
is preserved by `upsert_contract_addresses` provided every batch entry that hits an
existing `(chain_id, address)` key has `start_block_number` at most that row's current
ingestion cursor (fresh inserts establish the predicate outright), and preserved by
`update_next_block_number_to_ingest_from` provided the new block number is at least the
`start_block_number` of every row whose id matches. Without these provisos the code
violates the predicate (see the counterexample theorem). -/
theorem cursor_invariant_preservation (t : List ContractAddress)
    (hinv : cursorInvariant t) :
    (∀ (values : List UnsavedContractAddress) (t' : List ContractAddress),
        (∀ v ∈ values, ∀ r ∈ t, r.key = v.key →
          v.start_block_number ≤ r.next_block_number_to_ingest_from) →
        upsert_contract_addresses values t = some t' → cursorInvariant t') ∧
    (∀ (contract_address : ContractAddress) (block_number : Int),
        (∀ r ∈ t, r.id = contract_address.id → r.start_block_number ≤ block_number) →
        cursorInvariant
          (update_next_block_number_to_ingest_from t contract_address block_number)) := by
  constructor
  · intro values t' hcompat hup
    unfold upsert_contract_addresses at hup
    split at hup
    · rename_i hnd
      obtain rfl : values.foldl upsertRow t = t' := Option.some.inj hup
      exact cursorInvariant_foldl values t hnd hinv hcompat
    · cases hup
  · intro contract_address block_number hb r' hr'
    obtain ⟨r, hr, heq⟩ := List.mem_map.mp hr'
    by_cases h0 : r.id = contract_address.id
    · rw [if_pos h0] at heq
      subst heq
      exact hb r hr h0
    · rw [if_neg h0] at heq
      exact heq ▸ hinv r hr

/-- C2 as stated is false on the code: a table satisfying the predicate, after an upsert
that raises `start_block_number` past the preserved cursor, no longer satisfies it
(this is exactly spec §8 scenario 3: `start_block_number = 2000`,
`next_block_number_to_ingest_from = 400`). -/
theorem cursor_invariant_not_preserved :
    cursorInvariant [freshRow (UnsavedContractAddress.new "initial" "0xAB" 42 400)] ∧
    upsert_contract_addresses [UnsavedContractAddress.new "updated" "0xAB" 42 2000]
        [freshRow (UnsavedContractAddress.new "initial" "0xAB" 42 400)] =
      some [{ id := 0, chain_id := 42, address := "0xab", contract_name := "updated",
              start_block_number := 2000, next_block_number_to_ingest_from := 400,
              next_block_number_to_handle_from := 400,
              next_block_number_for_side_effects := 400 }] ∧
    ¬ cursorInvariant
        [{ id := 0, chain_id := 42, address := "0xab", contract_name := "updated",
           start_block_number := 2000, next_block_number_to_ingest_from := 400,
           next_block_number_to_handle_from := 400,
           next_block_number_for_side_effects := 400 }] := by
  refine ⟨by decide, by decide, by decide⟩

theorem cursor_invariant_preservation_witness :
    (∀ (values : List UnsavedContractAddress) (t' : List ContractAddress),
        (∀ v ∈ values,
          ∀ r ∈ [freshRow (UnsavedContractAddress.new "initial" "0xAB" 42 400)],
            r.key = v.key →
              v.start_block_number ≤ r.next_block_number_to_ingest_from) →
        upsert_contract_addresses values
            [freshRow (UnsavedContractAddress.new "initial" "0xAB" 42 400)] = some t' →
        cursorInvariant t') ∧
    (∀ (contract_address : ContractAddress) (block_number : Int),
        (∀ r ∈ [freshRow (UnsavedContractAddress.new "initial" "0xAB" 42 400)],
            r.id = contract_address.id → r.start_block_number ≤ block_number) →
        cursorInvariant
          (update_next_block_number_to_ingest_from
            [freshRow (UnsavedContractAddress.new "initial" "0xAB" 42 400)]
            contract_address block_number)) :=
  cursor_invariant_preservation
    [freshRow (UnsavedContractAddress.new "initial" "0xAB" 42 400)] (by decide)

/-! ## Node registry (src/chaindexing/src/repos/postgres_repo.rs, get_active_nodes) -/

/-- A row of `chaindexing_nodes` (spec §3 Node). -/
structure Node where
  id : Int
  last_active_at : Int
  deriving DecidableEq

/-- Modelled from the spec: `Node::get_min_active_at_in_secs` lives in nodes.rs, which is
not under src/. Spec §3: a node is active iff
`last_active_at ≥ now − 2 × node_election_rate_ms`, so the cutoff below which a
heartbeat is stale is `now − 2 × node_election_rate_ms`. The wall clock `now` is passed
explicitly rather than read from the environment. -/
def Node.get_min_active_at_in_secs (now : Int) (node_election_rate_ms : Nat) : Int :=
  now - 2 * (node_election_rate_ms : Int)

/-- `get_active_nodes` (postgres_repo.rs lines 213-224): keep the rows whose
`last_active_at` is strictly greater than the cutoff (`last_active_at.gt(...)`). -/
def get_active_nodes (nodes : List Node) (now : Int) (node_election_rate_ms : Nat) :
    List Node :=
  nodes.filter fun n =>
    decide (Node.get_min_active_at_in_secs now node_election_rate_ms < n.last_active_at)

/-- C4 as stated is false on the code: a node exactly on the boundary
(`last_active_at = now − 2 × node_election_rate_ms`) satisfies the claim's `≥` condition
but is excluded, because the source filters with strict `gt`. Here `now = 1000`,
`node_election_rate_ms = 100`, `last_active_at = 800 = 1000 − 2 × 100`. -/
theorem active_node_boundary_excluded :
    (Node.mk 1 800).last_active_at ≥ 1000 - 2 * (100 : Int) ∧
    Node.mk 1 800 ∉ get_active_nodes [Node.mk 1 800] 1000 100 := by
  refine ⟨by decide, by decide⟩

/-- C4 (amended): `get_active_nodes` returns exactly the nodes whose `last_active_at` is
strictly greater than `now − 2 × node_election_rate_ms`; nodes exactly on the boundary
are excluded. -/
theorem get_active_nodes_strict_window (nodes : List Node) (now : Int)
    (node_election_rate_ms : Nat) (n : Node) :
    n ∈ get_active_nodes nodes now node_election_rate_ms ↔
      n ∈ nodes ∧ now - 2 * (node_election_rate_ms : Int) < n.last_active_at := by
  simp [get_active_nodes, List.mem_filter, Node.get_min_active_at_in_secs]

/-! ## Events (src/chaindexing/src/repos/postgres_repo.rs, get_events) -/

/-- A row of `chaindexing_events`, restricted to the columns the claims observe
(spec §3 Event). Modelled from the spec: events.rs is not under src/; block numbers are
`u64` quantities at the provider interface (spec §4.C), modelled as `Nat`. -/
structure Event where
  id : Nat
  chain_id : Int
  contract_address : String
  block_number : Nat
  deriving DecidableEq

/-- The Rust cast `u64 as i64`: two's-complement reinterpretation, wrapping for values
at or above `2 ^ 63`. -/
def toI64 (n : Nat) : Int :=
  if n % 2 ^ 64 < 2 ^ 63 then ((n % 2 ^ 64 : Nat) : Int)
  else ((n % 2 ^ 64 : Nat) : Int) - 2 ^ 64

/-- `get_events` (postgres_repo.rs lines 134-148): filter the events table on
`contract_address = address.to_lowercase()` and
`block_number BETWEEN from as i64 AND to as i64` (BETWEEN is inclusive; the stored
`block_number` column is the i64 image of the u64 block number). -/
def get_events (events : List Event) (address : String) (from_block to_block : Nat) :
    List Event :=
  events.filter fun e =>
    e.contract_address == toLowercase address
      && decide (toI64 from_block ≤ toI64 e.block_number)
      && decide (toI64 e.block_number ≤ toI64 to_block)

theorem toI64_of_lt (n : Nat) (h : n < 2 ^ 63) : toI64 n = (n : Int) := by
  have hm : n % 2 ^ 64 = n := Nat.mod_eq_of_lt (lt_trans h (by norm_num))
  unfold toI64
  rw [hm, if_pos h]

theorem toI64_of_ge (n : Nat) (h1 : 2 ^ 63 ≤ n) (h2 : n < 2 ^ 64) :
    toI64 n = (n : Int) - 2 ^ 64 := by
  have hm : n % 2 ^ 64 = n := Nat.mod_eq_of_lt h2
  unfold toI64
  rw [hm, if_neg (not_lt.mpr h1)]

/-- C5 as stated is false on the code: for block numbers at the i64 boundary the casts
`from as i64` / `to as i64` wrap, so an event whose block number lies inside the claimed
inclusive range `[from, to]` is not returned. Here the single stored event has
`block_number = 2 ^ 63 ∈ [2 ^ 63 − 1, 2 ^ 63]` and its address equals the lowercased
query address, yet `get_events` returns nothing. -/
theorem get_events_cast_wraps :
    (2 ^ 63 - 1 : Nat) ≤ 2 ^ 63 ∧
    (Event.mk 0 1 "0xaa" (2 ^ 63)).contract_address = toLowercase "0xaa" ∧
    (2 ^ 63 - 1 : Nat) ≤ (Event.mk 0 1 "0xaa" (2 ^ 63)).block_number ∧
    (Event.mk 0 1 "0xaa" (2 ^ 63)).block_number ≤ 2 ^ 63 ∧
    Event.mk 0 1 "0xaa" (2 ^ 63) ∉
      get_events [Event.mk 0 1 "0xaa" (2 ^ 63)] "0xaa" (2 ^ 63 - 1) (2 ^ 63) := by
  refine ⟨by decide, by decide, by decide, by decide, by decide⟩

/-- C5 (amended): provided `from ≤ to < 2 ^ 63` (so the i64 casts in the query are
exact) and the stored block numbers are u64 values, `get_events` returns exactly the
stored events whose `contract_address` equals the lowercase of the given address and
whose block number lies in the inclusive range `[from, to]`; and the result is
identical for every case variant of the address argument. -/
theorem get_events_range_and_case (events : List Event) (address : String)
    (from_block to_block : Nat)
    (hwf : ∀ e ∈ events, e.block_number < 2 ^ 64)
    (hle : from_block ≤ to_block) (hto : to_block < 2 ^ 63) :
    (∀ e, e ∈ get_events events address from_block to_block ↔
        e ∈ events ∧ e.contract_address = toLowercase address ∧
        from_block ≤ e.block_number ∧ e.block_number ≤ to_block) ∧
    (∀ address2 : String, toLowercase address = toLowercase address2 →
        get_events events address from_block to_block =
          get_events events address2 from_block to_block) := by
  have key : ∀ bn : Nat, bn < 2 ^ 64 →
      ((toI64 from_block ≤ toI64 bn ∧ toI64 bn ≤ toI64 to_block) ↔
        (from_block ≤ bn ∧ bn ≤ to_block)) := by
    intro bn hbn
    have hf : toI64 from_block = (from_block : Int) :=
      toI64_of_lt _ (lt_of_le_of_lt hle hto)
    have ht : toI64 to_block = (to_block : Int) := toI64_of_lt _ hto
    by_cases hb : bn < 2 ^ 63
    · rw [hf, ht, toI64_of_lt _ hb]
      constructor
      · exact fun ⟨h1, h2⟩ => ⟨by exact_mod_cast h1, by exact_mod_cast h2⟩
      · exact fun ⟨h1, h2⟩ => ⟨by exact_mod_cast h1, by exact_mod_cast h2⟩
    · push_neg at hb
      rw [hf, ht, toI64_of_ge _ hb hbn]
      constructor
      · rintro ⟨h1, -⟩
        exfalso
        have hc : (bn : Int) < 2 ^ 64 := by exact_mod_cast hbn
        omega
      · rintro ⟨-, h2⟩
        exfalso
        have hc : bn ≤ to_block := h2
        omega
  constructor
  · intro e
    rw [get_events, List.mem_filter]
    simp only [Bool.and_eq_true, beq_iff_eq, decide_eq_true_eq]
    constructor
    · rintro ⟨he, ⟨ha, h1⟩, h2⟩
      obtain ⟨hb1, hb2⟩ := (key e.block_number (hwf e he)).mp ⟨h1, h2⟩
      exact ⟨he, ha, hb1, hb2⟩
    · rintro ⟨he, ha, hb1, hb2⟩
      obtain ⟨h1, h2⟩ := (key e.block_number (hwf e he)).mpr ⟨hb1, hb2⟩
      exact ⟨he, ⟨ha, h1⟩, h2⟩
  · intro address2 h2
    simp only [get_events, h2]

theorem get_events_range_and_case_witness :
    (∀ e, e ∈ get_events [Event.mk 0 1 "0xab" 5] "0xAB" 3 7 ↔
        e ∈ [Event.mk 0 1 "0xab" 5] ∧ e.contract_address = toLowercase "0xAB" ∧
        3 ≤ e.block_number ∧ e.block_number ≤ 7) ∧
    (∀ address2 : String, toLowercase "0xAB" = toLowercase address2 →
        get_events [Event.mk 0 1 "0xab" 5] "0xAB" 3 7 =
          get_events [Event.mk 0 1 "0xab" 5] address2 3 7) :=
  get_events_range_and_case [Event.mk 0 1 "0xab" 5] "0xAB" 3 7
    (by decide) (by decide) (by decide)

/-! ## Handler contract registration (src/chaindexing/src/lib.rs lines 132-149) -/

/-- Modelled from the spec: events.rs is not under src/; the event accessors used by
`include_contract_in_indexing` return the event's chain id and block number. -/
def Event.get_chain_id (e : Event) : Int := e.chain_id

def Event.get_block_number (e : Event) : Nat := e.block_number

/-- Modelled from the spec: the handler context (handlers.rs, not under src/) exposes the
current event and the raw-query client; the client is modelled by the
contract-address table it writes to. -/
structure HandlerContext where
  event : Event
  contract_addresses : List ContractAddress

/-- Modelled from the spec (§4.B): `create_contract_address` is not under src/; it
inserts the single address and on `(chain_id, address)` conflict it is a no-op. -/
def create_contract_address (t : List ContractAddress)
    (contract_address : UnsavedContractAddress) : List ContractAddress :=
  if ∃ r ∈ t, r.key = contract_address.key then t
  else t ++ [freshRow contract_address]

/-- `include_contract_in_indexing` (lib.rs lines 132-149): build an
`UnsavedContractAddress` from the current event's chain id and block number and hand it
to `create_contract_address`. -/
def include_contract_in_indexing (event_context : HandlerContext)
    (contract_name address : String) : List ContractAddress :=
  let event := event_context.event
  let chain_id := event.get_chain_id
  let start_block_number := event.get_block_number
  let contract_address :=
    UnsavedContractAddress.new contract_name address chain_id (start_block_number : Int)
  create_contract_address event_context.contract_addresses contract_address

/-- C6: `include_contract_in_indexing` registers, via `create_contract_address`, a
contract address whose `chain_id` is the current event's chain id and whose
`start_block_number` (and initial cursor) is the current event's block number; when the
`(chain_id, lowercased address)` pair is already present the call is a no-op. -/
theorem include_contract_registers_event_block (event_context : HandlerContext)
    (contract_name address : String) :
    ((∃ r ∈ event_context.contract_addresses,
        r.key = (event_context.event.get_chain_id, toLowercase address)) →
      include_contract_in_indexing event_context contract_name address =
        event_context.contract_addresses) ∧
    (¬ (∃ r ∈ event_context.contract_addresses,
        r.key = (event_context.event.get_chain_id, toLowercase address)) →
      ∃ r, include_contract_in_indexing event_context contract_name address =
          event_context.contract_addresses ++ [r] ∧
        r.chain_id = event_context.event.get_chain_id ∧
        r.start_block_number = (event_context.event.get_block_number : Int) ∧
        r.next_block_number_to_ingest_from = (event_context.event.get_block_number : Int) ∧
        r.contract_name = contract_name ∧
        r.address = toLowercase address) := by
  constructor
  · intro h
    simp only [include_contract_in_indexing, create_contract_address,
      UnsavedContractAddress.new, UnsavedContractAddress.key]
    rw [if_pos h]
  · intro h
    refine ⟨freshRow (UnsavedContractAddress.new contract_name address
      event_context.event.get_chain_id (event_context.event.get_block_number : Int)),
      ?_, rfl, rfl, rfl, rfl, rfl⟩
    simp only [include_contract_in_indexing, create_contract_address,
      UnsavedContractAddress.new, UnsavedContractAddress.key]
    rw [if_neg h]

theorem include_contract_registers_event_block_witness :
    ¬ (∃ r ∈ ([] : List ContractAddress),
        r.key = ((Event.mk 0 42 "" 7).get_chain_id, toLowercase "0xAB")) ∧
    (∃ r, include_contract_in_indexing ⟨Event.mk 0 42 "" 7, []⟩ "name1" "0xAB" =
        ([] : List ContractAddress) ++ [r] ∧
      r.chain_id = (Event.mk 0 42 "" 7).get_chain_id ∧
      r.start_block_number = ((Event.mk 0 42 "" 7).get_block_number : Int) ∧
      r.next_block_number_to_ingest_from = ((Event.mk 0 42 "" 7).get_block_number : Int) ∧
      r.contract_name = "name1" ∧
      r.address = toLowercase "0xAB") :=
  ⟨by decide,
    (include_contract_registers_event_block ⟨Event.mk 0 42 "" 7, []⟩ "name1" "0xAB").2
      (by decide)⟩

/-! ## Configuration (src/chaindexing/src/config.rs) and index_states
(src/chaindexing/src/lib.rs) -/

/-- `PostgresRepo` (postgres_repo.rs lines 52-65): a connection url. -/
structure PostgresRepo where
  url : String
  deriving DecidableEq

/-- Modelled from the spec: `Contract` lives in contracts.rs, which is not under src/;
only its presence in the configuration's contracts list is observed by the claims. -/
structure Contract (S : Type) where
  name : String
  deriving DecidableEq

/-- Modelled from the spec: `MinConfirmationCount` is not under src/; it wraps the count. -/
structure MinConfirmationCount where
  value : Nat
  deriving DecidableEq

def MinConfirmationCount.new (min_confirmation_count : Nat) : MinConfirmationCount :=
  ⟨min_confirmation_count⟩

/-- Modelled from the spec: `KeepNodeActiveRequest` lives in nodes.rs, which is not
under src/; it is an opaque handle whose content no claim observes. -/
structure KeepNodeActiveRequest where
  handle : Unit
  deriving DecidableEq

/-- `OptimizationConfig` (config.rs lines 27-35). -/
structure OptimizationConfig where
  keep_node_active_request : KeepNodeActiveRequest
  optimize_after_in_secs : Nat
  deriving DecidableEq

/-- Modelled from the spec: `DEFAULT_MAX_CONCURRENT_NODE_COUNT` lives in nodes.rs, which
is not under src/; the spec (§6) records it only as implementation-defined. -/
def DEFAULT_MAX_CONCURRENT_NODE_COUNT : Nat := 50

/-- `Config` (config.rs lines 37-52). `chains: HashMap<Chain, String>` is modelled as an
association list keyed by the chain's numeric id. -/
structure Config (S : Type) where
  chains : List (Int × String)
  repo : PostgresRepo
  contracts : List (Contract S)
  min_confirmation_count : MinConfirmationCount
  blocks_per_batch : Nat
  handler_rate_ms : Nat
  ingestion_rate_ms : Nat
  node_election_rate_ms : Option Nat
  reset_count : Nat
  reset_queries : List String
  shared_state : Option S
  max_concurrent_node_count : Nat
  optimization_config : Option OptimizationConfig

/-- `Config::new` (config.rs lines 55-71). -/
def Config.new {S : Type} (repo : PostgresRepo) : Config S :=
  { repo := repo
    chains := []
    contracts := []
    min_confirmation_count := MinConfirmationCount.new 40
    blocks_per_batch := 10000
    handler_rate_ms := 4000
    ingestion_rate_ms := 30000
    node_election_rate_ms := none
    reset_count := 0
    reset_queries := []
    shared_state := none
    max_concurrent_node_count := DEFAULT_MAX_CONCURRENT_NODE_COUNT
    optimization_config := none }

/-- `ConfigError` (config.rs lines 9-12). -/
inductive ConfigError where
  | NoContract
  | NoChain
  deriving DecidableEq

/-- `Config::get_node_election_rate_ms` (config.rs lines 151-153). -/
def Config.get_node_election_rate_ms {S : Type} (config : Config S) : Nat :=
  config.node_election_rate_ms.getD config.ingestion_rate_ms

/-- `Config::validate` (config.rs lines 155-163). -/
def Config.validate {S : Type} (config : Config S) : Except ConfigError Unit :=
  if config.contracts.isEmpty then .error .NoContract
  else if config.chains.isEmpty then .error .NoChain
  else .ok ()

/-- `ChaindexingError` (lib.rs lines 62-64). -/
inductive ChaindexingError where
  | Config (error : ConfigError)
  deriving DecidableEq

/-- The store operations `index_states` performs after validation, in source order
(lib.rs lines 82-129). -/
inductive StoreOp where
  | get_raw_query_client
  | get_pool
  | get_conn
  | setup_nodes
  | create_node
  | boot_setup
  | spawn_node_tasks
  deriving DecidableEq

/-- `index_states` (lib.rs lines 82-130): validate first; on failure return the config
error having performed no store operation; on success perform the boot sequence. The
outcome of `booting::setup` (booting.rs is not under src/) is abstracted as the
`boot_setup_result` argument; the returned trace lists the store operations performed. -/
def index_states {S : Type} (config : Config S)
    (boot_setup_result : Except ChaindexingError Unit) :
    List StoreOp × Except ChaindexingError Unit :=
  match config.validate with
  | .error e => ([], .error (.Config e))
  | .ok _ =>
    let pre := [StoreOp.get_raw_query_client, StoreOp.get_pool, StoreOp.get_conn,
      StoreOp.setup_nodes, StoreOp.create_node, StoreOp.boot_setup]
    match boot_setup_result with
    | .error e => (pre, .error e)
    | .ok _ => (pre ++ [StoreOp.spawn_node_tasks], .ok ())

theorem validate_spec (S : Type) (config : Config S) :
    (config.contracts = [] → config.validate = .error .NoContract) ∧
    (config.contracts ≠ [] → config.chains = [] → config.validate = .error .NoChain) ∧
    (config.contracts ≠ [] → config.chains ≠ [] → config.validate = .ok ()) := by
  unfold Config.validate
  refine ⟨fun h => ?_, fun h1 h2 => ?_, fun h1 h2 => ?_⟩
  · rw [if_pos (List.isEmpty_iff.mpr h)]
  · rw [if_neg (fun h => h1 (List.isEmpty_iff.mp h)),
      if_pos (List.isEmpty_iff.mpr h2)]
  · rw [if_neg (fun h => h1 (List.isEmpty_iff.mp h)),
      if_neg (fun h => h2 (List.isEmpty_iff.mp h))]

/-- C3: `index_states` validates the configuration before touching the store: with no
contract it returns `ConfigInvalid(NoContract)` and with contracts but no chain it
returns `ConfigInvalid(NoChain)`, in both cases having performed no store operation;
with both lists non-empty validation succeeds and startup proceeds to the store
operations. -/
theorem index_states_validation (S : Type) (config : Config S)
    (boot_setup_result : Except ChaindexingError Unit) :
    (config.contracts = [] →
      index_states config boot_setup_result =
        ([], .error (.Config .NoContract))) ∧
    (config.contracts ≠ [] → config.chains = [] →
      index_states config boot_setup_result =
        ([], .error (.Config .NoChain))) ∧
    (config.contracts ≠ [] → config.chains ≠ [] →
      config.validate = .ok () ∧
      StoreOp.setup_nodes ∈ (index_states config boot_setup_result).1) := by
  obtain ⟨h1, h2, h3⟩ := validate_spec S config
  refine ⟨fun hc => ?_, fun hc hch => ?_, fun hc hch => ?_⟩
  · unfold index_states
    rw [h1 hc]
  · unfold index_states
    rw [h2 hc hch]
  · refine ⟨h3 hc hch, ?_⟩
    unfold index_states
    rw [h3 hc hch]
    cases boot_setup_result <;> simp

theorem index_states_validation_witness :
    ({ Config.new ⟨"postgres://localhost/db"⟩ with
        contracts := [⟨"c1"⟩], chains := [(42161, "rpc")] } : Config Unit).validate =
      .ok () ∧
    StoreOp.setup_nodes ∈
      (index_states
        ({ Config.new ⟨"postgres://localhost/db"⟩ with
            contracts := [⟨"c1"⟩], chains := [(42161, "rpc")] } : Config Unit)
        (.ok ())).1 :=
  (index_states_validation Unit
    { Config.new ⟨"postgres://localhost/db"⟩ with
        contracts := [⟨"c1"⟩], chains := [(42161, "rpc")] }
    (.ok ())).2.2 (List.cons_ne_nil _ _) (List.cons_ne_nil _ _)

/-- C10: when both the contracts and the chains lists are empty, validation reports
`NoContract` (the contracts check precedes the chains check), so `index_states` returns
the `NoContract` error, performs no store operation, and never returns `NoChain`. -/
theorem validate_no_contract_precedence (S : Type) (config : Config S)
    (boot_setup_result : Except ChaindexingError Unit)
    (hc : config.contracts = []) (hch : config.chains = []) :
    config.validate = .error .NoContract ∧
    index_states config boot_setup_result = ([], .error (.Config .NoContract)) ∧
    (index_states config boot_setup_result).2 ≠ .error (.Config .NoChain) := by
  have h1 := (validate_spec S config).1 hc
  refine ⟨h1, ?_, ?_⟩
  · unfold index_states
    rw [h1]
  · unfold index_states
    rw [h1]
    simp

theorem validate_no_contract_precedence_witness :
    (Config.new ⟨"postgres://localhost/db"⟩ : Config Unit).validate =
      .error .NoContract ∧
    index_states (Config.new ⟨"postgres://localhost/db"⟩ : Config Unit) (.ok ()) =
      ([], .error (.Config .NoContract)) ∧
    (index_states (Config.new ⟨"postgres://localhost/db"⟩ : Config Unit)
        (.ok ())).2 ≠ .error (.Config .NoChain) :=
  validate_no_contract_precedence Unit (Config.new ⟨"postgres://localhost/db"⟩)
    (.ok ()) rfl rfl

/-- C8: `Config::new` yields the documented defaults, and
`get_node_election_rate_ms` returns `node_election_rate_ms` when set and
`ingestion_rate_ms` otherwise. -/
theorem config_new_defaults (S : Type) (repo : PostgresRepo) :
    (Config.new repo : Config S).min_confirmation_count = MinConfirmationCount.new 40 ∧
    (Config.new repo : Config S).blocks_per_batch = 10000 ∧
    (Config.new repo : Config S).handler_rate_ms = 4000 ∧
    (Config.new repo : Config S).ingestion_rate_ms = 30000 ∧
    (Config.new repo : Config S).reset_count = 0 ∧
    (Config.new repo : Config S).chains = [] ∧
    (Config.new repo : Config S).contracts = [] ∧
    (Config.new repo : Config S).reset_queries = [] ∧
    (Config.new repo : Config S).shared_state = none ∧
    (Config.new repo : Config S).node_election_rate_ms = none ∧
    (Config.new repo : Config S).optimization_config = none ∧
    (Config.new repo : Config S).repo = repo ∧
    (∀ (config : Config S) (v : Nat), config.node_election_rate_ms = some v →
      config.get_node_election_rate_ms = v) ∧
    (∀ config : Config S, config.node_election_rate_ms = none →
      config.get_node_election_rate_ms = config.ingestion_rate_ms) := by
  refine ⟨rfl, rfl, rfl, rfl, rfl, rfl, rfl, rfl, rfl, rfl, rfl, rfl, ?_, ?_⟩
  · intro config v h
    simp [Config.get_node_election_rate_ms, h]
  · intro config h
    simp [Config.get_node_election_rate_ms, h]

theorem config_new_defaults_witness :
    ({ Config.new ⟨"postgres://localhost/db"⟩ with
        node_election_rate_ms := some 7 } : Config Unit).get_node_election_rate_ms = 7 ∧
    (Config.new ⟨"postgres://localhost/db"⟩ : Config Unit).get_node_election_rate_ms =
      (Config.new ⟨"postgres://localhost/db"⟩ : Config Unit).ingestion_rate_ms := by
  have h := config_new_defaults Unit ⟨"postgres://localhost/db"⟩
  exact ⟨h.2.2.2.2.2.2.2.2.2.2.2.2.1 _ 7 rfl, h.2.2.2.2.2.2.2.2.2.2.2.2.2 _ rfl⟩

/-! ## Pruning (src/chaindexing/src/pruning.rs) -/

/-- `PruningConfig` (pruning.rs lines 1-9). -/
structure PruningConfig where
  prune_n_blocks_away : Nat
  prune_interval : Nat
  deriving DecidableEq

/-- `Default for PruningConfig` (pruning.rs lines 11-18). -/
def PruningConfig.default : PruningConfig :=
  { prune_n_blocks_away := 1000, prune_interval := 12 * 60 * 60 }

/-- `PruningConfig::get_min_block_number` (pruning.rs lines 20-27). -/
def PruningConfig.get_min_block_number (config : PruningConfig)
    (current_block_number : Nat) : Nat :=
  if current_block_number < config.prune_n_blocks_away then current_block_number
  else current_block_number - config.prune_n_blocks_away

/-- C9: `get_min_block_number` returns `current_block_number − prune_n_blocks_away` when
`current_block_number ≥ prune_n_blocks_away` (the u64 subtraction is exact, as witnessed
by adding `prune_n_blocks_away` back) and `current_block_number` otherwise, and the
result never exceeds `current_block_number`. -/
theorem get_min_block_number_spec (config : PruningConfig)
    (current_block_number : Nat) :
    (config.prune_n_blocks_away ≤ current_block_number →
      config.get_min_block_number current_block_number =
        current_block_number - config.prune_n_blocks_away ∧
      config.get_min_block_number current_block_number + config.prune_n_blocks_away =
        current_block_number) ∧
    (current_block_number < config.prune_n_blocks_away →
      config.get_min_block_number current_block_number = current_block_number) ∧
    config.get_min_block_number current_block_number ≤ current_block_number := by
  unfold PruningConfig.get_min_block_number
  refine ⟨fun h => ?_, fun h => ?_, ?_⟩
  · rw [if_neg (not_lt.mpr h)]
    omega
  · rw [if_pos h]
  · split <;> omega

theorem get_min_block_number_spec_witness :
    PruningConfig.default.get_min_block_number 1500 = 1500 - 1000 ∧
    PruningConfig.default.get_min_block_number 1500 + 1000 = 1500 := by
  have h := (get_min_block_number_spec PruningConfig.default 1500).1 (by decide)
  exact ⟨h.1, h.2⟩

end Chaindexing
